import Mathlib

/-!
Verification of the hunter-rabbit pursuit simulation engines
(IMO 2017 Problem 3 numerical experiments).

The repository contains two arbitrary-precision engines sharing one
algorithm skeleton and differing only in step-length quantization:

* `hunter_rabbit_modified_assumptions_hp.py` — continuous step length
  `moves = a * D`;
* `hunter_rabbit_original_rules_hp.py` — unit-ceiling step length
  `moves = ceil(a * D)`.

We embed both `simulate` functions as a single Lean model over the real
numbers, parameterized by the quantization mode, translating the loop
body statement by statement.  The arbitrary-precision scalars (`mpmath`
`mpf` values) are idealized as real numbers; the histories the Python
code keeps as Python lists become Lean lists, appended at the back
exactly as the code appends.
-/

/-- Step-length quantization mode: the only difference between the two
engine source files (`moves = a * D` versus `moves = mp.ceil(a * D)`). -/
inductive QuantMode where
  | continuous : QuantMode
  | unitCeil : QuantMode

/-- Quantization of a step length: identity in continuous mode,
integer ceiling in the unit-step (original-rules) mode, embedding
`mp.ceil` as the integer ceiling cast back to ℝ. -/
noncomputable def quantize : QuantMode → ℝ → ℝ
  | QuantMode.continuous, x => x
  | QuantMode.unitCeil, x => (⌈x⌉ : ℝ)

/-- Embedding of `mp.hypot`: the Euclidean norm of a pair. -/
noncomputable def hypot (x y : ℝ) : ℝ :=
  Real.sqrt (x ^ 2 + y ^ 2)

/-- Embedding of `wrap_angle` from both engine files:
`(angle + PI_LD) % (2 * PI_LD) - PI_LD`, where `%` is Python's modulo
(for the positive divisor `2π` this is `x - 2π·⌊x / (2π)⌋`). -/
noncomputable def wrap_angle (angle : ℝ) : ℝ :=
  (angle + Real.pi) - 2 * Real.pi * ⌊(angle + Real.pi) / (2 * Real.pi)⌋ - Real.pi

/-- The mutable state of one `simulate` run: scalar step length,
distance, accumulated distance, cycle counter, the two headings, the
position logs and the scalar histories, exactly the variables of the
Python `simulate` body. -/
structure SimState where
  moves : ℝ
  D : ℝ
  res : ℝ
  cycle : ℕ
  z_angle : ℝ
  m_angle : ℝ
  z_x : List ℝ
  z_y : List ℝ
  m_x : List ℝ
  m_y : List ℝ
  D_list : List ℝ
  z_angle_list : List ℝ
  m_angle_list : List ℝ
  moves_list : List ℝ

/-- One iteration of the `for` loop body of `simulate` (either source
file, selected by `mode`): increment the cycle counter, then either the
`cycle == 1` special case or the closed-form recurrence branch,
appending the new state to every history list.  `Python l[-1]` on the
never-empty position logs is embedded as `List.getLastD l 0`. -/
noncomputable def cycleStep (mode : QuantMode) (a : ℝ) (s : SimState) : SimState :=
  let cycle := s.cycle + 1
  if cycle = 1 then
    let D : ℝ := 1
    let res := s.res + 1
    let step_z := s.moves
    let new_z_x := s.z_x.getLastD 0 + step_z * Real.cos s.z_angle
    let new_z_y := s.z_y.getLastD 0 + step_z * Real.sin s.z_angle
    let moves := quantize mode a
    let alfa_new := Real.arcsin (1 / moves)
    let z_angle := wrap_angle (s.z_angle + alfa_new)
    { s with
      cycle := cycle
      D := D
      res := res
      moves := moves
      z_angle := z_angle
      z_x := s.z_x ++ [new_z_x]
      z_y := s.z_y ++ [new_z_y]
      m_x := s.m_x ++ [s.m_x.getLastD 0]
      m_y := s.m_y ++ [s.m_y.getLastD 0]
      D_list := s.D_list ++ [D]
      z_angle_list := s.z_angle_list ++ [z_angle]
      m_angle_list := s.m_angle_list ++ [s.m_angle]
      moves_list := s.moves_list ++ [moves] }
  else
    let m_dist := Real.sqrt (s.moves * s.moves - 1)
    let x_diff := m_dist - s.moves + s.D
    let D := hypot x_diff 1
    let res := s.res + s.moves
    let alfa_old := Real.arcsin (1 / s.moves)
    let new_z_x := s.z_x.getLastD 0 + s.moves * Real.cos s.z_angle
    let new_z_y := s.z_y.getLastD 0 + s.moves * Real.sin s.z_angle
    let new_m_x := s.m_x.getLastD 0 + s.moves * Real.cos s.m_angle
    let new_m_y := s.m_y.getLastD 0 + s.moves * Real.sin s.m_angle
    let m_angle := wrap_angle (s.m_angle + Real.arcsin (1 / D))
    let moves := quantize mode (a * D)
    let z_angle :=
      wrap_angle (s.z_angle + Real.arcsin (1 / moves) + Real.arcsin (1 / D) - alfa_old)
    { s with
      cycle := cycle
      D := D
      res := res
      moves := moves
      z_angle := z_angle
      m_angle := m_angle
      z_x := s.z_x ++ [new_z_x]
      z_y := s.z_y ++ [new_z_y]
      m_x := s.m_x ++ [new_m_x]
      m_y := s.m_y ++ [new_m_y]
      D_list := s.D_list ++ [D]
      z_angle_list := s.z_angle_list ++ [z_angle]
      m_angle_list := s.m_angle_list ++ [m_angle]
      moves_list := s.moves_list ++ [moves] }

/-- The `for _ in range(max_steps)` loop of `simulate`, with the
`if D > D_limit: break` check after each iteration, as fuel-indexed
recursion: with fuel `0` the loop body never runs. -/
noncomputable def simLoop (mode : QuantMode) (a D_limit : ℝ) : ℕ → SimState → SimState
  | 0, s => s
  | fuel + 1, s =>
    if D_limit < (cycleStep mode a s).D then cycleStep mode a s
    else simLoop mode a D_limit fuel (cycleStep mode a s)

/-- The initial state of `simulate`: `moves = 1`, `D = 0`, `res = 0`,
`cycle = 0`, both headings zero, both agents at the origin, and the
seed entries already in every history list. -/
noncomputable def initState : SimState where
  moves := 1
  D := 0
  res := 0
  cycle := 0
  z_angle := 0
  m_angle := 0
  z_x := [0]
  z_y := [0]
  m_x := [0]
  m_y := [0]
  D_list := [0]
  z_angle_list := [0]
  m_angle_list := [0]
  moves_list := [1]

/-- The whole `simulate(a, D_limit, max_steps)` call (precision digits
are idealized away by working over ℝ): run the loop from the initial
state.  The returned dictionary is the final `SimState`, whose fields
are exactly the entries of the returned dict. -/
noncomputable def simulate (mode : QuantMode) (a D_limit : ℝ) (max_steps : ℕ) : SimState :=
  simLoop mode a D_limit max_steps initState

/-! ### Basic facts about `wrap_angle` -/

theorem wrap_angle_eq_fract (angle : ℝ) :
    wrap_angle angle =
      2 * Real.pi * Int.fract ((angle + Real.pi) / (2 * Real.pi)) - Real.pi := by
  have h2π : (2 * Real.pi) ≠ 0 := by positivity
  unfold wrap_angle Int.fract
  field_simp

theorem wrap_angle_mem_Ico (angle : ℝ) :
    wrap_angle angle ∈ Set.Ico (-Real.pi) Real.pi := by
  have h2π : (0 : ℝ) < 2 * Real.pi := by positivity
  rw [wrap_angle_eq_fract]
  constructor
  · have h0 : (0 : ℝ) ≤ Int.fract ((angle + Real.pi) / (2 * Real.pi)) :=
      Int.fract_nonneg _
    nlinarith
  · have h1 : Int.fract ((angle + Real.pi) / (2 * Real.pi)) < 1 :=
      Int.fract_lt_one _
    nlinarith

theorem wrap_angle_period (angle : ℝ) (k : ℤ) :
    wrap_angle (angle + 2 * Real.pi * k) = wrap_angle angle := by
  have h2π : (2 * Real.pi) ≠ 0 := by positivity
  rw [wrap_angle_eq_fract, wrap_angle_eq_fract]
  have harg : (angle + 2 * Real.pi * k + Real.pi) / (2 * Real.pi) =
      (angle + Real.pi) / (2 * Real.pi) + k := by
    field_simp
    ring
  rw [harg, Int.fract_add_int]

/-- If the angle is already in `[-π, π)` then wrapping leaves it unchanged. -/
theorem wrap_angle_eq_self (angle : ℝ) (h1 : -Real.pi ≤ angle) (h2 : angle < Real.pi) :
    wrap_angle angle = angle := by
  have h2π : (0 : ℝ) < 2 * Real.pi := by positivity
  have hfloor : ⌊(angle + Real.pi) / (2 * Real.pi)⌋ = 0 := by
    apply Int.floor_eq_zero_iff.mpr
    constructor
    · apply div_nonneg _ (le_of_lt h2π)
      linarith
    · rw [div_lt_one h2π]
      linarith
  unfold wrap_angle
  rw [hfloor]
  push_cast
  ring

/-- C3: wrap_angle maps every real angle into the half-open interval
[-π, π) and is 2π-periodic: wrap_angle (θ + 2πk) = wrap_angle θ for
every integer k. -/
theorem C3_wrap_angle_range_and_period (θ : ℝ) :
    wrap_angle θ ∈ Set.Ico (-Real.pi) Real.pi ∧
      ∀ k : ℤ, wrap_angle (θ + 2 * Real.pi * k) = wrap_angle θ :=
  ⟨wrap_angle_mem_Ico θ, fun k => wrap_angle_period θ k⟩

/-! ### Projection lemmas for one loop iteration -/

theorem cycleStep_cycle (mode : QuantMode) (a : ℝ) (s : SimState) :
    (cycleStep mode a s).cycle = s.cycle + 1 := by
  by_cases h : s.cycle = 0 <;> simp [cycleStep, h]

theorem cycleStep_D_list (mode : QuantMode) (a : ℝ) (s : SimState) :
    (cycleStep mode a s).D_list = s.D_list ++ [(cycleStep mode a s).D] := by
  by_cases h : s.cycle = 0 <;> simp [cycleStep, h]

theorem cycleStep_moves_list (mode : QuantMode) (a : ℝ) (s : SimState) :
    (cycleStep mode a s).moves_list = s.moves_list ++ [(cycleStep mode a s).moves] := by
  by_cases h : s.cycle = 0 <;> simp [cycleStep, h]

theorem cycleStep_z_angle_list (mode : QuantMode) (a : ℝ) (s : SimState) :
    (cycleStep mode a s).z_angle_list = s.z_angle_list ++ [(cycleStep mode a s).z_angle] := by
  by_cases h : s.cycle = 0 <;> simp [cycleStep, h]

theorem cycleStep_m_angle_list (mode : QuantMode) (a : ℝ) (s : SimState) :
    (cycleStep mode a s).m_angle_list = s.m_angle_list ++ [(cycleStep mode a s).m_angle] := by
  by_cases h : s.cycle = 0 <;> simp [cycleStep, h]

theorem cycleStep_D_zero (mode : QuantMode) (a : ℝ) (s : SimState) (h : s.cycle = 0) :
    (cycleStep mode a s).D = 1 := by
  simp [cycleStep, h]

theorem cycleStep_moves_zero (mode : QuantMode) (a : ℝ) (s : SimState) (h : s.cycle = 0) :
    (cycleStep mode a s).moves = quantize mode a := by
  simp [cycleStep, h]

theorem cycleStep_res_zero (mode : QuantMode) (a : ℝ) (s : SimState) (h : s.cycle = 0) :
    (cycleStep mode a s).res = s.res + 1 := by
  simp [cycleStep, h]

theorem cycleStep_z_angle_zero (mode : QuantMode) (a : ℝ) (s : SimState) (h : s.cycle = 0) :
    (cycleStep mode a s).z_angle =
      wrap_angle (s.z_angle + Real.arcsin (1 / quantize mode a)) := by
  simp [cycleStep, h]

theorem cycleStep_D_succ (mode : QuantMode) (a : ℝ) (s : SimState) (h : s.cycle ≠ 0) :
    (cycleStep mode a s).D =
      hypot (Real.sqrt (s.moves * s.moves - 1) - s.moves + s.D) 1 := by
  simp [cycleStep, h]

theorem cycleStep_moves_succ (mode : QuantMode) (a : ℝ) (s : SimState) (h : s.cycle ≠ 0) :
    (cycleStep mode a s).moves = quantize mode (a * (cycleStep mode a s).D) := by
  simp [cycleStep, h]

theorem cycleStep_res_succ (mode : QuantMode) (a : ℝ) (s : SimState) (h : s.cycle ≠ 0) :
    (cycleStep mode a s).res = s.res + s.moves := by
  simp [cycleStep, h]

theorem simLoop_zero (mode : QuantMode) (a L : ℝ) (s : SimState) :
    simLoop mode a L 0 s = s := rfl

theorem simLoop_succ (mode : QuantMode) (a L : ℝ) (fuel : ℕ) (s : SimState) :
    simLoop mode a L (fuel + 1) s =
      if L < (cycleStep mode a s).D then cycleStep mode a s
      else simLoop mode a L fuel (cycleStep mode a s) := rfl

/-! ### The run invariant -/

/-- The invariant maintained by every iteration of the `simulate` loop,
tying the scalar state to the history lists: all four histories have one
seed entry plus one entry per completed cycle, end in the current
scalars, start at the seed values `D = 0`, `moves = 1`, `res` is the sum
of the step lengths actually travelled, every per-cycle distance is at
least `1`, every per-cycle step length is the quantized `a * D` of its
cycle, and from the second cycle on the distances follow the closed-form
recurrence. -/
structure RunInv (mode : QuantMode) (a : ℝ) (s : SimState) : Prop where
  len_D : s.D_list.length = s.cycle + 1
  len_z : s.z_angle_list.length = s.cycle + 1
  len_m : s.m_angle_list.length = s.cycle + 1
  len_moves : s.moves_list.length = s.cycle + 1
  last_D : s.D_list.getD s.cycle 0 = s.D
  last_moves : s.moves_list.getD s.cycle 0 = s.moves
  seed_D : s.D_list.getD 0 0 = 0
  seed_moves : s.moves_list.getD 0 0 = 1
  res_eq : s.res = (s.moves_list.take s.cycle).sum
  D_ge_one : ∀ i, 1 ≤ i → i ≤ s.cycle → 1 ≤ s.D_list.getD i 0
  moves_eq : ∀ i, 1 ≤ i → i ≤ s.cycle →
    s.moves_list.getD i 0 = quantize mode (a * s.D_list.getD i 0)
  recur : ∀ i, 2 ≤ i → i ≤ s.cycle →
    s.D_list.getD i 0 =
      hypot (Real.sqrt (s.moves_list.getD (i - 1) 0 * s.moves_list.getD (i - 1) 0 - 1)
          - s.moves_list.getD (i - 1) 0 + s.D_list.getD (i - 1) 0) 1

theorem RunInv_initState (mode : QuantMode) (a : ℝ) : RunInv mode a initState := by
  constructor <;> simp [initState] <;> omega

theorem sum_of_length_one (l : List ℝ) (h : l.length = 1) : l.sum = l.getD 0 0 := by
  match l, h with
  | [x], _ => simp

theorem one_le_cycleStep_D (mode : QuantMode) (a : ℝ) (s : SimState) :
    1 ≤ (cycleStep mode a s).D := by
  by_cases h : s.cycle = 0
  · rw [cycleStep_D_zero mode a s h]
  · rw [cycleStep_D_succ mode a s h]
    unfold hypot
    rw [Real.one_le_sqrt]
    nlinarith [sq_nonneg (Real.sqrt (s.moves * s.moves - 1) - s.moves + s.D)]

theorem cycleStep_moves_eq (mode : QuantMode) (a : ℝ) (s : SimState) :
    (cycleStep mode a s).moves = quantize mode (a * (cycleStep mode a s).D) := by
  by_cases h : s.cycle = 0
  · rw [cycleStep_moves_zero mode a s h, cycleStep_D_zero mode a s h, mul_one]
  · exact cycleStep_moves_succ mode a s h

/-- One loop iteration preserves the run invariant. -/
theorem RunInv_cycleStep {mode : QuantMode} {a : ℝ} {s : SimState}
    (hs : RunInv mode a s) : RunInv mode a (cycleStep mode a s) := by
  have hc := cycleStep_cycle mode a s
  have hDl := cycleStep_D_list mode a s
  have hml := cycleStep_moves_list mode a s
  have hzl := cycleStep_z_angle_list mode a s
  have hmal := cycleStep_m_angle_list mode a s
  have hlD : s.D_list.length = s.cycle + 1 := hs.len_D
  have hlM : s.moves_list.length = s.cycle + 1 := hs.len_moves
  constructor
  · simp [hDl, hc, hlD]
  · simp [hzl, hc, hs.len_z]
  · simp [hmal, hc, hs.len_m]
  · simp [hml, hc, hlM]
  · rw [hDl, hc, List.getD_append_right _ _ _ _ (le_of_eq hlD), hlD]
    simp
  · rw [hml, hc, List.getD_append_right _ _ _ _ (le_of_eq hlM), hlM]
    simp
  · rw [hDl, List.getD_append _ _ _ _ (by rw [hlD]; exact Nat.succ_pos _)]
    exact hs.seed_D
  · rw [hml, List.getD_append _ _ _ _ (by rw [hlM]; exact Nat.succ_pos _)]
    exact hs.seed_moves
  · -- res_eq
    rw [hml, hc, List.take_append_of_le_length (le_of_eq hlM.symm)]
    have hfull : s.moves_list.take (s.cycle + 1) = s.moves_list := by
      rw [← hlM, List.take_length]
    rw [hfull]
    by_cases h : s.cycle = 0
    · rw [cycleStep_res_zero mode a s h, hs.res_eq, h]
      rw [sum_of_length_one s.moves_list (by rw [hlM, h]), hs.seed_moves]
      simp
    · rw [cycleStep_res_succ mode a s h, hs.res_eq]
      have hlt : s.cycle < s.moves_list.length := by rw [hlM]; omega
      have hstep := List.sum_take_succ s.moves_list s.cycle hlt
      rw [hfull] at hstep
      rw [hstep, ← List.getD_eq_getElem s.moves_list 0 hlt, hs.last_moves]
  · -- D_ge_one
    intro i h1 h2
    rw [hc] at h2
    by_cases hi : i ≤ s.cycle
    · rw [hDl, List.getD_append _ _ _ _ (by rw [hlD]; omega)]
      exact hs.D_ge_one i h1 hi
    · have hieq : i = s.cycle + 1 := by omega
      rw [hDl, List.getD_append_right _ _ _ _ (by rw [hlD]; omega), hlD, hieq]
      simp
      exact one_le_cycleStep_D mode a s
  · -- moves_eq
    intro i h1 h2
    rw [hc] at h2
    by_cases hi : i ≤ s.cycle
    · rw [hml, hDl, List.getD_append _ _ _ _ (by rw [hlM]; omega),
        List.getD_append _ _ _ _ (by rw [hlD]; omega)]
      exact hs.moves_eq i h1 hi
    · have hieq : i = s.cycle + 1 := by omega
      rw [hml, hDl, List.getD_append_right _ _ _ _ (by rw [hlM]; omega),
        List.getD_append_right _ _ _ _ (by rw [hlD]; omega), hlM, hlD, hieq]
      simp
      exact cycleStep_moves_eq mode a s
  · -- recur
    intro i h1 h2
    rw [hc] at h2
    by_cases hi : i ≤ s.cycle
    · have hi1 : i - 1 ≤ s.cycle := by omega
      rw [hDl, hml, List.getD_append _ _ _ _ (by rw [hlD]; omega),
        List.getD_append _ _ _ _ (by rw [hlM]; omega),
        List.getD_append _ _ _ _ (by rw [hlD]; omega)]
      exact hs.recur i h1 hi
    · have hieq : i = s.cycle + 1 := by omega
      have hcyc : s.cycle ≠ 0 := by omega
      rw [hDl, hml, hieq]
      rw [List.getD_append_right _ _ _ _ (le_of_eq hlD)]
      rw [List.getD_append _ _ _ _ (by rw [hlM]; omega)]
      rw [List.getD_append _ _ _ _ (by rw [hlD]; omega)]
      rw [hlD]
      simp only [Nat.sub_self, Nat.add_sub_cancel, List.getD_cons_zero]
      rw [hs.last_moves, hs.last_D]
      exact cycleStep_D_succ mode a s hcyc

/-- The run invariant holds throughout the loop. -/
theorem RunInv_simLoop (mode : QuantMode) (a L : ℝ) (fuel : ℕ) :
    ∀ s : SimState, RunInv mode a s → RunInv mode a (simLoop mode a L fuel s) := by
  induction fuel with
  | zero => intro s hs; exact hs
  | succ n ih =>
    intro s hs
    rw [simLoop_succ]
    split_ifs with hb
    · exact RunInv_cycleStep hs
    · exact ih _ (RunInv_cycleStep hs)

/-- The run invariant holds of every completed `simulate` run. -/
theorem RunInv_simulate (mode : QuantMode) (a L : ℝ) (fuel : ℕ) :
    RunInv mode a (simulate mode a L fuel) :=
  RunInv_simLoop mode a L fuel initState (RunInv_initState mode a)

/-- If the loop ends before its fuel is exhausted, it ended through the
`D > D_limit` break, so the final distance exceeds the limit. -/
theorem simLoop_cycle_lt (mode : QuantMode) (a L : ℝ) (fuel : ℕ) :
    ∀ s : SimState, (simLoop mode a L fuel s).cycle < s.cycle + fuel →
      L < (simLoop mode a L fuel s).D := by
  induction fuel with
  | zero =>
    intro s h
    rw [simLoop_zero] at h
    exact absurd h (by omega)
  | succ n ih =>
    intro s h
    rw [simLoop_succ] at h ⊢
    by_cases hb : L < (cycleStep mode a s).D
    · rw [if_pos hb]
      exact hb
    · rw [if_neg hb] at h ⊢
      apply ih
      have hcc := cycleStep_cycle mode a s
      omega

/-- Every history entry strictly before the final cycle stays at or
below the limit, provided the entries present on loop entry do. -/
theorem simLoop_all_le (mode : QuantMode) (a L : ℝ) (fuel : ℕ) :
    ∀ s : SimState, RunInv mode a s →
      (∀ i, i ≤ s.cycle → s.D_list.getD i 0 ≤ L) →
      ∀ i, i < (simLoop mode a L fuel s).cycle →
        (simLoop mode a L fuel s).D_list.getD i 0 ≤ L := by
  induction fuel with
  | zero =>
    intro s _ hall i hi
    rw [simLoop_zero] at hi ⊢
    exact hall i (le_of_lt hi)
  | succ n ih =>
    intro s hs hall
    rw [simLoop_succ]
    split_ifs with hb
    · intro i hi
      rw [cycleStep_cycle] at hi
      rw [cycleStep_D_list, List.getD_append _ _ _ _ (by rw [hs.len_D]; omega)]
      exact hall i (by omega)
    · apply ih _ (RunInv_cycleStep hs)
      intro i hi
      rw [cycleStep_cycle] at hi
      rw [cycleStep_D_list]
      by_cases hile : i ≤ s.cycle
      · rw [List.getD_append _ _ _ _ (by rw [hs.len_D]; omega)]
        exact hall i hile
      · have hieq : i = s.cycle + 1 := by omega
        rw [hieq, List.getD_append_right _ _ _ _ (le_of_eq hs.len_D), hs.len_D]
        simp only [Nat.sub_self, List.getD_cons_zero]
        exact le_of_not_lt hb

/-- One iteration leaves the already recorded history entries unchanged. -/
theorem cycleStep_getD_pres {mode : QuantMode} {a : ℝ} {s : SimState}
    (hs : RunInv mode a s) (i : ℕ) (hi : i ≤ s.cycle) :
    (cycleStep mode a s).D_list.getD i 0 = s.D_list.getD i 0 ∧
    (cycleStep mode a s).moves_list.getD i 0 = s.moves_list.getD i 0 ∧
    (cycleStep mode a s).z_angle_list.getD i 0 = s.z_angle_list.getD i 0 := by
  refine ⟨?_, ?_, ?_⟩
  · rw [cycleStep_D_list, List.getD_append _ _ _ _ (by rw [hs.len_D]; omega)]
  · rw [cycleStep_moves_list, List.getD_append _ _ _ _ (by rw [hs.len_moves]; omega)]
  · rw [cycleStep_z_angle_list, List.getD_append _ _ _ _ (by rw [hs.len_z]; omega)]

/-- The loop leaves the already recorded history entries unchanged. -/
theorem simLoop_getD_pres (mode : QuantMode) (a L : ℝ) (fuel : ℕ) :
    ∀ s : SimState, RunInv mode a s → ∀ i, i ≤ s.cycle →
      (simLoop mode a L fuel s).D_list.getD i 0 = s.D_list.getD i 0 ∧
      (simLoop mode a L fuel s).moves_list.getD i 0 = s.moves_list.getD i 0 ∧
      (simLoop mode a L fuel s).z_angle_list.getD i 0 = s.z_angle_list.getD i 0 := by
  induction fuel with
  | zero =>
    intro s _ i _
    exact ⟨rfl, rfl, rfl⟩
  | succ n ih =>
    intro s hs i hi
    rw [simLoop_succ]
    split_ifs with hb
    · exact cycleStep_getD_pres hs i hi
    · have h1 := cycleStep_getD_pres hs i hi
      have h2 := ih _ (RunInv_cycleStep hs) i (by rw [cycleStep_cycle]; omega)
      exact ⟨h2.1.trans h1.1, h2.2.1.trans h1.2.1, h2.2.2.trans h1.2.2⟩

/-! ### Small evaluation helpers for concrete runs -/

theorem first_step_D (mode : QuantMode) (a : ℝ) :
    (cycleStep mode a initState).D = 1 :=
  cycleStep_D_zero mode a initState rfl

theorem first_step_cycle (mode : QuantMode) (a : ℝ) :
    (cycleStep mode a initState).cycle = 1 := by
  rw [cycleStep_cycle]
  rfl

theorem simulate_fuel_one (mode : QuantMode) (a L : ℝ) :
    simulate mode a L 1 = cycleStep mode a initState := by
  rw [simulate, simLoop_succ, simLoop_zero, ite_self]

theorem simulate_fuel_two (mode : QuantMode) (a L : ℝ)
    (h : ¬ L < (cycleStep mode a initState).D) :
    simulate mode a L 2 = cycleStep mode a (cycleStep mode a initState) := by
  rw [simulate, simLoop_succ, if_neg h, simLoop_succ, simLoop_zero, ite_self]

theorem quantize_pos (mode : QuantMode) (x : ℝ) (hx : 0 < x) :
    0 < quantize mode x := by
  cases mode with
  | continuous => simpa [quantize] using hx
  | unitCeil =>
    simp only [quantize]
    exact_mod_cast Int.ceil_pos.mpr hx

theorem sum_take_mono_of_nonneg {l : List ℝ} (hl : ∀ x ∈ l, (0:ℝ) ≤ x)
    {j k : ℕ} (hjk : j ≤ k) : (l.take j).sum ≤ (l.take k).sum := by
  have h1 : l.take j = (l.take k).take j := by
    rw [List.take_take, Nat.min_eq_left hjk]
  have h2 : (l.take k).take j ++ (l.take k).drop j = l.take k :=
    List.take_append_drop j (l.take k)
  have h3 : (0:ℝ) ≤ ((l.take k).drop j).sum := by
    apply List.sum_nonneg
    intro x hx
    exact hl x (List.mem_of_mem_take (List.mem_of_mem_drop hx))
  calc (l.take j).sum = ((l.take k).take j).sum := by rw [h1]
    _ ≤ ((l.take k).take j).sum + ((l.take k).drop j).sum := by linarith
    _ = (l.take k).sum := by rw [← List.sum_append, h2]

/-! ### The claims -/

/-- C6: for every completed simulate run, in every variant, the four
returned histories D, z_angle, m_angle and moves have equal length,
namely the returned cycle count plus one (seed entry plus one entry per
completed cycle). -/
theorem C6_history_length_invariant (mode : QuantMode) (a L : ℝ) (fuel : ℕ) :
    (simulate mode a L fuel).D_list.length = (simulate mode a L fuel).cycle + 1 ∧
    (simulate mode a L fuel).z_angle_list.length = (simulate mode a L fuel).cycle + 1 ∧
    (simulate mode a L fuel).m_angle_list.length = (simulate mode a L fuel).cycle + 1 ∧
    (simulate mode a L fuel).moves_list.length = (simulate mode a L fuel).cycle + 1 :=
  ⟨(RunInv_simulate mode a L fuel).len_D, (RunInv_simulate mode a L fuel).len_z,
    (RunInv_simulate mode a L fuel).len_m, (RunInv_simulate mode a L fuel).len_moves⟩

/-- C1: in every simulate run, in every variant, every recorded distance
after the first cycle is computed from the previous cycle's distance and
step length by the closed-form recurrence
`D_i = hypot(sqrt(moves² - 1) - moves + D_{i-1}, 1)`, with `moves` the
step length carried over from cycle `i - 1`. -/
theorem C1_closed_form_recurrence (mode : QuantMode) (a L : ℝ) (fuel i : ℕ)
    (h2 : 2 ≤ i) (hi : i < (simulate mode a L fuel).D_list.length) :
    (simulate mode a L fuel).D_list.getD i 0 =
      hypot (Real.sqrt ((simulate mode a L fuel).moves_list.getD (i - 1) 0 *
            (simulate mode a L fuel).moves_list.getD (i - 1) 0 - 1)
          - (simulate mode a L fuel).moves_list.getD (i - 1) 0
          + (simulate mode a L fuel).D_list.getD (i - 1) 0) 1 := by
  have h := RunInv_simulate mode a L fuel
  have hlen := h.len_D
  exact h.recur i h2 (by omega)

/-- Witness for C1 at the concrete run `simulate continuous 2 100 2`,
whose history has three entries so index 2 is in range. -/
theorem C1_closed_form_recurrence_witness :
    2 < (simulate QuantMode.continuous 2 100 2).D_list.length ∧
    (simulate QuantMode.continuous 2 100 2).D_list.getD 2 0 =
      hypot (Real.sqrt ((simulate QuantMode.continuous 2 100 2).moves_list.getD 1 0 *
            (simulate QuantMode.continuous 2 100 2).moves_list.getD 1 0 - 1)
          - (simulate QuantMode.continuous 2 100 2).moves_list.getD 1 0
          + (simulate QuantMode.continuous 2 100 2).D_list.getD 1 0) 1 := by
  have hcyc : (simulate QuantMode.continuous 2 100 2).cycle = 2 := by
    rw [simulate_fuel_two QuantMode.continuous 2 100 (by rw [first_step_D]; norm_num)]
    rw [cycleStep_cycle, cycleStep_cycle]
    rfl
  have hlen : 2 < (simulate QuantMode.continuous 2 100 2).D_list.length := by
    have := (RunInv_simulate QuantMode.continuous 2 100 2).len_D
    omega
  exact ⟨hlen, C1_closed_form_recurrence QuantMode.continuous 2 100 2 2 (by norm_num) hlen⟩

/-- C10: in every simulate run, in every variant, every recorded
distance from cycle 1 on is at least 1 (cycle 1 sets D = 1 and later
cycles set D = hypot(x_diff, 1) ≥ 1), so the hunter-heading argument
1/D always lies in the arcsine domain [-1, 1]. -/
theorem C10_distance_ge_one (mode : QuantMode) (a L : ℝ) (fuel i : ℕ)
    (h1 : 1 ≤ i) (hi : i < (simulate mode a L fuel).D_list.length) :
    1 ≤ (simulate mode a L fuel).D_list.getD i 0 ∧
    -1 ≤ 1 / (simulate mode a L fuel).D_list.getD i 0 ∧
    1 / (simulate mode a L fuel).D_list.getD i 0 ≤ 1 := by
  have h := RunInv_simulate mode a L fuel
  have hlen := h.len_D
  have hD : 1 ≤ (simulate mode a L fuel).D_list.getD i 0 :=
    h.D_ge_one i h1 (by omega)
  have hpos : 0 < (simulate mode a L fuel).D_list.getD i 0 := by linarith
  refine ⟨hD, ?_, ?_⟩
  · have hnn : 0 ≤ 1 / (simulate mode a L fuel).D_list.getD i 0 := by positivity
    linarith
  · exact (div_le_one hpos).mpr hD

/-- Witness for C10 at the concrete run `simulate continuous 2 100 1`
and index 1. -/
theorem C10_distance_ge_one_witness :
    1 < (simulate QuantMode.continuous 2 100 1).D_list.length ∧
    (1 ≤ (simulate QuantMode.continuous 2 100 1).D_list.getD 1 0 ∧
      -1 ≤ 1 / (simulate QuantMode.continuous 2 100 1).D_list.getD 1 0 ∧
      1 / (simulate QuantMode.continuous 2 100 1).D_list.getD 1 0 ≤ 1) := by
  have hcyc : (simulate QuantMode.continuous 2 100 1).cycle = 1 := by
    rw [simulate_fuel_one, first_step_cycle]
  have hlen : 1 < (simulate QuantMode.continuous 2 100 1).D_list.length := by
    have := (RunInv_simulate QuantMode.continuous 2 100 1).len_D
    omega
  exact ⟨hlen, C10_distance_ge_one QuantMode.continuous 2 100 1 1 (le_refl 1) hlen⟩

/-- C4: in the unit-ceiling variant with a > 0, every recorded step
length after the seed entry equals ceil(a * D) for the distance D
recorded at the same cycle (D = 1 at cycle 1), and is an integer ≥ 1. -/
theorem C4_unit_ceiling_quantization (a L : ℝ) (fuel i : ℕ) (ha : 0 < a)
    (h1 : 1 ≤ i) (hi : i < (simulate QuantMode.unitCeil a L fuel).moves_list.length) :
    (simulate QuantMode.unitCeil a L fuel).moves_list.getD i 0 =
      (⌈a * (simulate QuantMode.unitCeil a L fuel).D_list.getD i 0⌉ : ℝ) ∧
    ∃ k : ℤ, (simulate QuantMode.unitCeil a L fuel).moves_list.getD i 0 = (k : ℝ) ∧
      1 ≤ k := by
  have h := RunInv_simulate QuantMode.unitCeil a L fuel
  have hlen := h.len_moves
  have hic : i ≤ (simulate QuantMode.unitCeil a L fuel).cycle := by omega
  have hq : (simulate QuantMode.unitCeil a L fuel).moves_list.getD i 0 =
      (⌈a * (simulate QuantMode.unitCeil a L fuel).D_list.getD i 0⌉ : ℝ) := by
    rw [h.moves_eq i h1 hic]
    simp [quantize]
  have hD := h.D_ge_one i h1 hic
  have hpos : 0 < a * (simulate QuantMode.unitCeil a L fuel).D_list.getD i 0 := by
    nlinarith
  have hk : 1 ≤ ⌈a * (simulate QuantMode.unitCeil a L fuel).D_list.getD i 0⌉ := by
    have := Int.ceil_pos.mpr hpos
    omega
  exact ⟨hq, ⟨⌈a * (simulate QuantMode.unitCeil a L fuel).D_list.getD i 0⌉, hq, hk⟩⟩

/-- Witness for C4 at the concrete unit-ceiling run with a = 2,
D_limit = 100, one cycle, index 1. -/
theorem C4_unit_ceiling_quantization_witness :
    ((0:ℝ) < 2 ∧ 1 < (simulate QuantMode.unitCeil 2 100 1).moves_list.length) ∧
    ((simulate QuantMode.unitCeil 2 100 1).moves_list.getD 1 0 =
      (⌈(2:ℝ) * (simulate QuantMode.unitCeil 2 100 1).D_list.getD 1 0⌉ : ℝ) ∧
    ∃ k : ℤ, (simulate QuantMode.unitCeil 2 100 1).moves_list.getD 1 0 = (k : ℝ) ∧
      1 ≤ k) := by
  have hcyc : (simulate QuantMode.unitCeil 2 100 1).cycle = 1 := by
    rw [simulate_fuel_one, first_step_cycle]
  have hlen : 1 < (simulate QuantMode.unitCeil 2 100 1).moves_list.length := by
    have := (RunInv_simulate QuantMode.unitCeil 2 100 1).len_moves
    omega
  exact ⟨⟨by norm_num, hlen⟩,
    C4_unit_ceiling_quantization 2 100 1 1 (by norm_num) (le_refl 1) hlen⟩

/-- C5 fails as stated: with a = -1 (no positivity validation exists in
the code) the accumulator decreases from 1 after cycle 1 to 0 after
cycle 2, so res is not monotonically non-decreasing for every run. -/
theorem C5_counterexample_res_decreases :
    (simulate QuantMode.continuous (-1) 100 2).res <
      (simulate QuantMode.continuous (-1) 100 1).res := by
  have hD : (cycleStep QuantMode.continuous (-1) initState).D = 1 := first_step_D _ _
  rw [simulate_fuel_one,
    simulate_fuel_two QuantMode.continuous (-1) 100 (by rw [hD]; norm_num)]
  rw [cycleStep_res_succ _ _ _ (by rw [cycleStep_cycle]; omega)]
  rw [cycleStep_res_zero _ _ _ rfl, cycleStep_moves_zero _ _ _ rfl]
  simp [initState, quantize]

/-- C5 (amended): in every simulate run of every variant, regardless of
a, res is the sum of the step lengths of the completed cycles: 1 at
cycle 1 (the seed entry of the moves history is 1) and increasing by
exactly the moves used in each later cycle; when additionally a > 0,
every recorded step length is positive, so the partial accumulations
are monotonically non-decreasing over the run. -/
theorem C5_res_accumulation (mode : QuantMode) (a L : ℝ) (fuel : ℕ) :
    (simulate mode a L fuel).res =
      ((simulate mode a L fuel).moves_list.take (simulate mode a L fuel).cycle).sum ∧
    (simulate mode a L fuel).moves_list.getD 0 0 = 1 ∧
    (0 < a →
      (∀ i, 1 ≤ i → i < (simulate mode a L fuel).moves_list.length →
        0 < (simulate mode a L fuel).moves_list.getD i 0) ∧
      ∀ j k, j ≤ k → k ≤ (simulate mode a L fuel).cycle →
        ((simulate mode a L fuel).moves_list.take j).sum ≤
          ((simulate mode a L fuel).moves_list.take k).sum) := by
  have h := RunInv_simulate mode a L fuel
  have hlen := h.len_moves
  refine ⟨h.res_eq, h.seed_moves, ?_⟩
  intro ha
  have hposall : ∀ i, 1 ≤ i → i < (simulate mode a L fuel).moves_list.length →
      0 < (simulate mode a L fuel).moves_list.getD i 0 := by
    intro i h1 hi
    have hic : i ≤ (simulate mode a L fuel).cycle := by omega
    rw [h.moves_eq i h1 hic]
    have hD := h.D_ge_one i h1 hic
    exact quantize_pos mode _ (by nlinarith)
  refine ⟨hposall, ?_⟩
  intro j k hjk hk
  apply sum_take_mono_of_nonneg _ hjk
  intro x hx
  obtain ⟨n, hn⟩ := List.mem_iff_get.mp hx
  have hnl : (n : ℕ) < (simulate mode a L fuel).moves_list.length := n.isLt
  have hxd : (simulate mode a L fuel).moves_list.getD (n : ℕ) 0 = x := by
    rw [List.getD_eq_getElem _ 0 hnl, ← hn]
    simp
  by_cases hn0 : (n : ℕ) = 0
  · rw [hn0] at hxd
    rw [← hxd, h.seed_moves]
    norm_num
  · have := hposall (n : ℕ) (by omega) hnl
    rw [hxd] at this
    linarith

/-- Witness for C5 (amended) at the concrete run
`simulate continuous 2 100 1`, discharging the inner a > 0 hypothesis of
the monotonicity part there. -/
theorem C5_res_accumulation_witness :
    (simulate QuantMode.continuous 2 100 1).res =
      ((simulate QuantMode.continuous 2 100 1).moves_list.take
        (simulate QuantMode.continuous 2 100 1).cycle).sum ∧
    (simulate QuantMode.continuous 2 100 1).moves_list.getD 0 0 = 1 ∧
    ((∀ i, 1 ≤ i → i < (simulate QuantMode.continuous 2 100 1).moves_list.length →
      0 < (simulate QuantMode.continuous 2 100 1).moves_list.getD i 0) ∧
    ∀ j k, j ≤ k → k ≤ (simulate QuantMode.continuous 2 100 1).cycle →
      ((simulate QuantMode.continuous 2 100 1).moves_list.take j).sum ≤
        ((simulate QuantMode.continuous 2 100 1).moves_list.take k).sum) :=
  ⟨(C5_res_accumulation QuantMode.continuous 2 100 1).1,
    (C5_res_accumulation QuantMode.continuous 2 100 1).2.1,
    (C5_res_accumulation QuantMode.continuous 2 100 1).2.2 (by norm_num)⟩

/-- C2 fails as stated for a negative threshold: with D_limit = -1 the
run stops through the threshold at cycle 1 (with fuel to spare), yet
the earlier history entry (the seed D = 0) is not ≤ D_limit. -/
theorem C2_counterexample_negative_limit :
    (simulate QuantMode.continuous 2 (-1) 3).cycle < 3 ∧
    0 < (simulate QuantMode.continuous 2 (-1) 3).cycle ∧
    ¬ (simulate QuantMode.continuous 2 (-1) 3).D_list.getD 0 0 ≤ -1 := by
  have heq : simulate QuantMode.continuous 2 (-1) 3 =
      cycleStep QuantMode.continuous 2 initState := by
    rw [simulate, simLoop_succ, if_pos (by rw [first_step_D]; norm_num)]
  rw [heq, first_step_cycle]
  refine ⟨by norm_num, by norm_num, ?_⟩
  have hp := cycleStep_getD_pres (RunInv_initState QuantMode.continuous 2) 0 (Nat.zero_le _)
  rw [hp.1]
  simp [initState]

/-- C2 (amended, for a non-negative threshold): a run that stops before
exhausting max_steps stops at the first cycle whose end-of-cycle D
exceeds D_limit — the last history entry exceeds D_limit and every
earlier entry is at most D_limit. -/
theorem C2_stops_at_first_exceedance (mode : QuantMode) (a L : ℝ) (fuel : ℕ)
    (hL : 0 ≤ L) (hstop : (simulate mode a L fuel).cycle < fuel) :
    (simulate mode a L fuel).D_list.length = (simulate mode a L fuel).cycle + 1 ∧
    L < (simulate mode a L fuel).D_list.getD (simulate mode a L fuel).cycle 0 ∧
    ∀ i, i < (simulate mode a L fuel).cycle →
      (simulate mode a L fuel).D_list.getD i 0 ≤ L := by
  have h := RunInv_simulate mode a L fuel
  have hbrk : L < (simulate mode a L fuel).D := by
    apply simLoop_cycle_lt mode a L fuel initState
    have hz : initState.cycle = 0 := rfl
    rw [hz, Nat.zero_add]
    exact hstop
  refine ⟨h.len_D, ?_, ?_⟩
  · rw [h.last_D]
    exact hbrk
  · apply simLoop_all_le mode a L fuel initState (RunInv_initState mode a)
    intro i hi
    have hz : initState.cycle = 0 := rfl
    rw [hz] at hi
    have hi0 : i = 0 := by omega
    rw [hi0]
    simpa [initState] using hL

/-- Witness for C2 (amended), at the run `simulate continuous 2 (1/2) 2`
which breaks through the threshold at cycle 1 with fuel to spare. -/
theorem C2_stops_at_first_exceedance_witness :
    ((0:ℝ) ≤ 1/2 ∧ (simulate QuantMode.continuous 2 (1/2) 2).cycle < 2) ∧
    ((simulate QuantMode.continuous 2 (1/2) 2).D_list.length =
        (simulate QuantMode.continuous 2 (1/2) 2).cycle + 1 ∧
      1/2 < (simulate QuantMode.continuous 2 (1/2) 2).D_list.getD
        (simulate QuantMode.continuous 2 (1/2) 2).cycle 0 ∧
      ∀ i, i < (simulate QuantMode.continuous 2 (1/2) 2).cycle →
        (simulate QuantMode.continuous 2 (1/2) 2).D_list.getD i 0 ≤ 1/2) := by
  have heq : simulate QuantMode.continuous 2 (1/2) 2 =
      cycleStep QuantMode.continuous 2 initState := by
    rw [simulate, simLoop_succ, if_pos (by rw [first_step_D]; norm_num)]
  have hcyc : (simulate QuantMode.continuous 2 (1/2) 2).cycle = 1 := by
    rw [heq, first_step_cycle]
  have hstop : (simulate QuantMode.continuous 2 (1/2) 2).cycle < 2 := by omega
  exact ⟨⟨by norm_num, hstop⟩,
    C2_stops_at_first_exceedance QuantMode.continuous 2 (1/2) 2 (by norm_num) hstop⟩

/-- C8 fails as stated: a run that is truncated by max_steps without D
ever exceeding its limit (D_limit = 2) and a run that stops through the
threshold (D_limit = 1/2) return identical records, so the outcome kinds
are not distinguishable from the result. -/
theorem C8_counterexample_identical_results :
    simulate QuantMode.continuous 2 2 1 = simulate QuantMode.continuous 2 (1/2) 1 ∧
    ¬ (2:ℝ) < (simulate QuantMode.continuous 2 2 1).D ∧
    (1/2:ℝ) < (simulate QuantMode.continuous 2 (1/2) 1).D := by
  refine ⟨?_, ?_, ?_⟩
  · rw [simulate_fuel_one, simulate_fuel_one]
  · rw [simulate_fuel_one, first_step_D]
    norm_num
  · rw [simulate_fuel_one, first_step_D]
    norm_num

/-- C8 (amended): the returned record carries no distinct outcome
marker for max_steps exhaustion — there are a threshold-terminated run
and a fuel-exhausted (non-converged) run whose returned results are
identical, so a caller cannot tell them apart from the result alone. -/
theorem C8_no_outcome_marker :
    ∃ (mode : QuantMode) (a L1 L2 : ℝ) (fuel : ℕ),
      ¬ L1 < (simulate mode a L1 fuel).D ∧
      L2 < (simulate mode a L2 fuel).D ∧
      simulate mode a L1 fuel = simulate mode a L2 fuel := by
  refine ⟨QuantMode.continuous, 2, 2, 1/2, 1, ?_, ?_, ?_⟩
  · rw [simulate_fuel_one, first_step_D]
    norm_num
  · rw [simulate_fuel_one, first_step_D]
    norm_num
  · rw [simulate_fuel_one, simulate_fuel_one]

/-- C9: the continuous-step engine with a = 2 and D_limit = 100 records
after cycle 1 the distance D = 1, the next step length moves = 2, and
the rabbit heading arcsin(1/2). -/
theorem C9_concrete_first_cycle (n : ℕ) :
    (simulate QuantMode.continuous 2 100 (n + 1)).D_list.getD 1 0 = 1 ∧
    (simulate QuantMode.continuous 2 100 (n + 1)).moves_list.getD 1 0 = 2 ∧
    (simulate QuantMode.continuous 2 100 (n + 1)).z_angle_list.getD 1 0 =
      Real.arcsin (1 / 2) := by
  have hred : simulate QuantMode.continuous 2 100 (n + 1) =
      simLoop QuantMode.continuous 2 100 n (cycleStep QuantMode.continuous 2 initState) := by
    rw [simulate, simLoop_succ, if_neg (by rw [first_step_D]; norm_num)]
  have hinv1 : RunInv QuantMode.continuous 2 (cycleStep QuantMode.continuous 2 initState) :=
    RunInv_cycleStep (RunInv_initState _ _)
  have hpres := simLoop_getD_pres QuantMode.continuous 2 100 n
    (cycleStep QuantMode.continuous 2 initState) hinv1 1 (by rw [first_step_cycle])
  rw [hred]
  refine ⟨?_, ?_, ?_⟩
  · rw [hpres.1, cycleStep_D_list]
    have hl : initState.D_list = [0] := rfl
    rw [hl]
    simp only [List.singleton_append, List.getD_cons_succ, List.getD_cons_zero]
    exact first_step_D _ _
  · rw [hpres.2.1, cycleStep_moves_list]
    have hl : initState.moves_list = [1] := rfl
    rw [hl]
    simp only [List.singleton_append, List.getD_cons_succ, List.getD_cons_zero]
    rw [cycleStep_moves_zero _ _ _ rfl]
    rfl
  · rw [hpres.2.2, cycleStep_z_angle_list]
    have hl : initState.z_angle_list = [0] := rfl
    rw [hl]
    simp only [List.singleton_append, List.getD_cons_succ, List.getD_cons_zero]
    rw [cycleStep_z_angle_zero _ _ _ rfl]
    have hz : initState.z_angle = 0 := rfl
    have hq : quantize QuantMode.continuous 2 = 2 := rfl
    rw [hz, hq, zero_add]
    rw [wrap_angle_eq_self]
    · have h1 := Real.arcsin_nonneg.mpr (by norm_num : (0:ℝ) ≤ 1/2)
      have hπ := Real.pi_pos
      linarith
    · have h2 := Real.arcsin_le_pi_div_two (1/2)
      have hπ := Real.pi_pos
      linarith

/-- Modelled from the spec: the fixed-precision engine
`hunter_rabbit_modified_assumptions_float.simulate` is imported by the
comparison driver but its source file is missing; per the spec it runs
the same recurrence as the continuous-step variant, only in native
floating point, which this idealized real-valued model renders as the
continuous mode. -/
noncomputable def simulate_float (a D_limit : ℝ) (max_steps : ℕ) : SimState :=
  simulate QuantMode.continuous a D_limit max_steps

theorem simulate_float_eq_continuous (a D_limit : ℝ) (max_steps : ℕ) :
    simulate_float a D_limit max_steps =
      simulate QuantMode.continuous a D_limit max_steps := rfl
